import Mathlib

/-!
Verification of the progress-tracking core of a terminal video-editor
front-end (`src/commands.rs` and `src/tui/mod.rs`).

The embedding models:
* the byte-at-a-time line reader inside `run_ffmpeg_with_progress`
  (bytes are modelled as `Char` restricted to the ASCII range, the
  `from_utf8_lossy` conversion is the identity on that range);
* the two regular-expression extractions
  `Duration: (\d+):(\d+):(\d+(?:\.\d+)?)` and
  `time=(\d+):(\d+):(\d+(?:\.\d+)?)` as leftmost-match scanners;
* the per-line event emission (log filtering, duration update,
  clamped percentage), with `f64` arithmetic replaced by exact `ℚ`
  arithmetic (all quantities involved are small nonnegative decimals);
* the exit-status handling of `run_ffmpeg_with_progress` and the
  worker closure of `execute_command` in `src/tui/mod.rs`, with the
  mpsc channel abstracted as a per-message delivery predicate whose
  result the worker discards (`let _ = tx.send(..)`).
-/

namespace VideoEditor

/-- Type `ProgressInfo` from `src/commands.rs`: `Log(String)` or `Percentage(f64)`.
Strings are byte lists, `f64` is modelled as `ℚ`. -/
inductive ProgressInfo where
  | Log (line : List Char)
  | Percentage (p : ℚ)
deriving DecidableEq, Repr

/-- Type `AppEvent` from `src/tui/mod.rs`: channel payload of the worker thread. -/
inductive AppEvent where
  | Progress (info : ProgressInfo)
  | Done
  | Error (msg : List Char)
deriving DecidableEq, Repr

/-- ASCII decimal digit test, the `\d` character class of the patterns
(restricted to ASCII input). -/
def isDig (c : Char) : Bool :=
  '0' ≤ c ∧ c ≤ '9'

/-- Numeric value of a digit string, as produced by `str::parse` on a
capture consisting only of decimal digits. -/
def digsVal (ds : List Char) : ℕ :=
  ds.foldl (fun a c => 10 * a + (c.toNat - 48)) 0

/-- Value of the fractional part `.d₁…dₖ` of the seconds capture. -/
def fracVal (ds : List Char) : ℚ :=
  (digsVal ds : ℚ) / (10 ^ ds.length)

/-- Value of the optional `(?:\.\d+)?` group of the seconds capture at
the remainder `r5`: a fraction when a dot followed by at least one digit
is present, `0` otherwise (the group then simply fails to match). -/
def fracOf (r5 : List Char) : ℚ :=
  match r5 with
  | '.' :: r6 => if (r6.takeWhile isDig).isEmpty then 0 else fracVal (r6.takeWhile isDig)
  | _ => 0

/-- Attempt to match `(\d+):(\d+):(\d+(?:\.\d+)?)` at the head of `cs`,
returning hours, minutes and (fractional) seconds.  Greedy digit runs
followed by literal `:` are deterministic, so this is exactly the regex
engine's behaviour at a fixed starting offset. -/
def parseHMS (cs : List Char) : Option (ℕ × ℕ × ℚ) :=
  if (cs.takeWhile isDig).isEmpty then none else
  match cs.dropWhile isDig with
  | ':' :: r2 =>
    if (r2.takeWhile isDig).isEmpty then none else
    match r2.dropWhile isDig with
    | ':' :: r4 =>
      if (r4.takeWhile isDig).isEmpty then none else
      some (digsVal (cs.takeWhile isDig), digsVal (r2.takeWhile isDig),
        (digsVal (r4.takeWhile isDig) : ℚ) + fracOf (r4.dropWhile isDig))
    | _ => none
  | _ => none

/-- Here `chopLit lit s` returns the remainder of `s` after the literal `lit`,
when `lit` heads `s`. -/
def chopLit : List Char → List Char → Option (List Char)
  | [], s => some s
  | _ :: _, [] => none
  | p :: ps, c :: cs => if p = c then chopLit ps cs else none

/-- Leftmost match of `lit` followed by `(\d+):(\d+):(\d+(?:\.\d+)?)`:
the `Regex::captures` semantics of both patterns in
`run_ffmpeg_with_progress`. -/
def scanFor (lit : List Char) : List Char → Option (ℕ × ℕ × ℚ)
  | [] => none
  | c :: cs =>
    match chopLit lit (c :: cs) with
    | some rest =>
      match parseHMS rest with
      | some v => some v
      | none => scanFor lit cs
    | none => scanFor lit cs

/-- Value `h * 3600.0 + m * 60.0 + s`, the combination applied to both the
duration and the time captures. -/
def secsOf (v : ℕ × ℕ × ℚ) : ℚ :=
  (v.1 : ℚ) * 3600 + (v.2.1 : ℚ) * 60 + v.2.2

/-- Total seconds of the leftmost `Duration: H:M:S` match of a line. -/
def durFind (line : List Char) : Option ℚ :=
  (scanFor "Duration: ".toList line).map secsOf

/-- Total seconds of the leftmost `time=H:M:S` match of a line. -/
def timeFind (line : List Char) : Option ℚ :=
  (scanFor "time=".toList line).map secsOf

/-- The test `line.starts_with` against the literal `frame=`. -/
def framePref (line : List Char) : Bool :=
  (chopLit "frame=".toList line).isSome

/-- The assignment `total_duration_secs = h*3600 + m*60 + s` guarded by
`duration_regex.captures`: a matching line overwrites the running total,
a non-matching line leaves it unchanged. -/
def durUpdate (total : ℚ) (line : List Char) : ℚ :=
  match durFind line with
  | some v => v
  | none => total

/-- The `Percentage` events emitted for one line once the duration update
has run: guarded by `total_duration_secs > 0.0`, value
`(current_secs / total_duration_secs).min(1.0)`. -/
def percOut (total : ℚ) (line : List Char) : List ProgressInfo :=
  if 0 < total then
    match timeFind line with
    | some t => [ProgressInfo.Percentage (min (t / total) 1)]
    | none => []
  else []

/-- Processing of one completed line in `run_ffmpeg_with_progress`:
log callback unless the line starts with `frame=`, then the duration
update, then the guarded percentage callback.  Returns the new
`total_duration_secs` and the events passed to the callback, in order. -/
def stepLine (total : ℚ) (line : List Char) : ℚ × List ProgressInfo :=
  ((durUpdate total line),
    (if framePref line then [] else [ProgressInfo.Log line])
      ++ percOut (durUpdate total line) line)

/-- Folding `stepLine` over a list of completed lines. -/
def stepLines (total : ℚ) : List (List Char) → ℚ × List ProgressInfo
  | [] => (total, [])
  | l :: ls =>
    let s1 := stepLine total l
    let s2 := stepLines s1.1 ls
    (s2.1, s1.2 ++ s2.2)

/-- The byte loop of `run_ffmpeg_with_progress` with accumulator `buf`:
on `\n` or `\r`, emit the buffer if nonempty and clear it; any other
byte is pushed; end of input discards the unterminated buffer. -/
def readLinesAux (buf : List Char) : List Char → List (List Char)
  | [] => []
  | b :: bs =>
    if b = '\n' ∨ b = '\r' then
      if buf.isEmpty then readLinesAux [] bs
      else buf :: readLinesAux [] bs
    else readLinesAux (buf ++ [b]) bs

/-- The line reader: complete lines produced from a byte stream. -/
def readLines (bs : List Char) : List (List Char) :=
  readLinesAux [] bs

/-- One step of the `reader.read(&mut byte)` loop's input: a byte,
end of stream (`Ok(0)`), or an I/O error (`Err(_)`). -/
inductive ReadStep where
  | byte (c : Char)
  | eof
  | ioErr
deriving DecidableEq, Repr

/-- The bytes the loop actually consumes: everything up to the first
`Ok(0)` or `Err(_)`, both of which `break` the loop. -/
def readBytes : List ReadStep → List Char
  | [] => []
  | ReadStep.byte c :: rest => c :: readBytes rest
  | ReadStep.eof :: _ => []
  | ReadStep.ioErr :: _ => []

/-- Type `std::process::ExitStatus`: success flag plus its `Display` text. -/
structure ExitStatus where
  success : Bool
  display : List Char
deriving DecidableEq, Repr

/-- The message of the anyhow error returned on non-zero exit: the
literal text followed by the Display text of the status. -/
def statusMsg (st : ExitStatus) : List Char :=
  "ffmpeg failed with status: ".toList ++ st.display

/-- Function `run_ffmpeg_with_progress` after a successful spawn: drain the
diagnostic stream through the line reader and per-line processing,
wait for the child, and on success emit the final forced
`Percentage(1.0)`; on failure return the error carrying the status.
Returns the full callback event sequence and the function's result. -/
def runFfmpeg (steps : List ReadStep) (st : ExitStatus) :
    List ProgressInfo × Except (List Char) Unit :=
  let evs := (stepLines 0 (readLines (readBytes steps))).2
  if st.success then (evs ++ [ProgressInfo.Percentage 1], Except.ok ())
  else (evs, Except.error (statusMsg st))

/-- The messages the worker closure in `execute_command` hands to
`tx.send`, in order: one `Progress` per callback event, then exactly one
terminal `Done` or `Error` according to the command's result. -/
def workerSends (steps : List ReadStep) (st : ExitStatus) : List AppEvent :=
  ((runFfmpeg steps st).1).map AppEvent.Progress ++
    [match (runFfmpeg steps st).2 with
     | Except.ok _ => AppEvent.Done
     | Except.error e => AppEvent.Error e]

/-- The worker's send loop against a channel that accepts or rejects the
`n`-th send (`ch n = true` iff `tx.send` returns `Ok`): each attempt's
result is discarded (`let _ = tx.send(..)`), so the worker moves to the
next message regardless. Returns every attempt paired with its delivery
result. -/
def sendAllFrom (ch : ℕ → Bool) (n : ℕ) : List AppEvent → List (AppEvent × Bool)
  | [] => []
  | m :: ms => (m, ch n) :: sendAllFrom ch (n + 1) ms

/-- The whole worker invocation: every message attempted, in order,
against the channel behaviour `ch`. -/
def workerRun (ch : ℕ → Bool) (steps : List ReadStep) (st : ExitStatus) :
    List (AppEvent × Bool) :=
  sendAllFrom ch 0 (workerSends steps st)

/-- Is a channel message terminal (`Done` or `Error`)? -/
def isTerminal : AppEvent → Bool
  | AppEvent.Progress _ => false
  | AppEvent.Done => true
  | AppEvent.Error _ => true

/-- The percentage values carried by an event list, in order. -/
def percVals : List ProgressInfo → List ℚ
  | [] => []
  | ProgressInfo.Percentage p :: rest => p :: percVals rest
  | ProgressInfo.Log _ :: rest => percVals rest

end VideoEditor

set_option allowUnsafeReducibility true

attribute [semireducible] Rat.add Rat.mul Rat.inv Rat.div

namespace VideoEditor

/-- Percentage values distribute over event-list concatenation. -/
theorem percVals_append (a b : List ProgressInfo) :
    percVals (a ++ b) = percVals a ++ percVals b := by
  induction a with
  | nil => rfl
  | cons e rest ih => cases e <;> simp [percVals, ih]

/-- A log-only event list carries no percentage values. -/
theorem percVals_log_block (line : List Char) :
    percVals (if framePref line then [] else [ProgressInfo.Log line]) = [] := by
  by_cases h : framePref line <;> simp [h, percVals]

/-- Unfolding of `stepLines` over a concatenation of line lists. -/
theorem stepLines_append (d : ℚ) (xs ys : List (List Char)) :
    stepLines d (xs ++ ys) =
      ((stepLines (stepLines d xs).1 ys).1,
        (stepLines d xs).2 ++ (stepLines (stepLines d xs).1 ys).2) := by
  induction xs generalizing d with
  | nil => simp [stepLines]
  | cons l ls ih => simp [stepLines, ih (stepLine d l).1, List.append_assoc]

/-- The fractional-part value is nonnegative. -/
theorem fracOf_nonneg (r5 : List Char) : 0 ≤ fracOf r5 := by
  have hfr : ∀ ds : List Char, (0 : ℚ) ≤ fracVal ds := by
    intro ds
    exact div_nonneg (Nat.cast_nonneg _) (by positivity)
  unfold fracOf
  split
  · split_ifs
    · exact le_refl 0
    · exact hfr _
  · exact le_refl 0

/-- A whole-seconds capture plus its fractional part is nonnegative. -/
theorem capPlusFrac_nonneg (n : ℕ) (r : List Char) : (0:ℚ) ≤ (n : ℚ) + fracOf r := by
  have := fracOf_nonneg r
  positivity

/-- Hour/minute/second triples produced by `parseHMS` are nonnegative in
value. -/
theorem parseHMS_nonneg (cs : List Char) (v : ℕ × ℕ × ℚ)
    (h : parseHMS cs = some v) : 0 ≤ secsOf v := by
  have hv : 0 ≤ v.2.2 := by
    unfold parseHMS at h
    split_ifs at h
    split at h
    · split_ifs at h
      split at h
      · split_ifs at h
        cases h
        exact capPlusFrac_nonneg _ _
      · exact Option.noConfusion h
    · exact Option.noConfusion h
  simp only [secsOf]
  have h1 : (0:ℚ) ≤ (v.1 : ℚ) * 3600 := by positivity
  have h2 : (0:ℚ) ≤ (v.2.1 : ℚ) * 60 := by positivity
  linarith

/-- Values found by `scanFor` are nonnegative. -/
theorem scanFor_nonneg (lit cs : List Char) (v : ℕ × ℕ × ℚ)
    (h : scanFor lit cs = some v) : 0 ≤ secsOf v := by
  induction cs with
  | nil => simp [scanFor] at h
  | cons c rest ih =>
    rw [scanFor] at h
    rcases h1 : chopLit lit (c :: rest) with _ | tl <;> simp only [h1] at h
    · exact ih h
    · rcases h2 : parseHMS tl with _ | w <;> simp only [h2] at h
      · exact ih h
      · cases h
        exact parseHMS_nonneg tl v h2

/-- Time markers extracted from a line are nonnegative. -/
theorem timeFind_nonneg (line : List Char) (t : ℚ) (h : timeFind line = some t) :
    0 ≤ t := by
  unfold timeFind at h
  rcases h1 : scanFor "time=".toList line with _ | v <;> simp only [h1] at h
  · exact Option.noConfusion h
  · rw [Option.map_some'] at h
    cases h
    exact scanFor_nonneg _ _ _ h1

/-- A `percOut` block carries exactly the clamped ratio of the line's
time marker, when the total is positive and a marker is present. -/
theorem percVals_percOut (total : ℚ) (line : List Char) :
    percVals (percOut total line) =
      if 0 < total then
        match timeFind line with
        | some t => [min (t / total) 1]
        | none => []
      else [] := by
  unfold percOut
  split_ifs with h
  · rcases timeFind line with _ | t <;> simp [percVals]
  · simp [percVals]

/-- The percentage values of one processed line come only from its
`percOut` block. -/
theorem percVals_stepLine (d : ℚ) (line : List Char) :
    percVals (stepLine d line).2 = percVals (percOut (durUpdate d line) line) := by
  unfold stepLine
  rw [percVals_append, percVals_log_block]
  rfl

/-- When the running total is positive and no further line matches the
duration pattern, the total is unchanged and the emitted percentages are
exactly the clamped ratios of the time markers, in order. -/
theorem stepLines_const_dur (d : ℚ) (hd : 0 < d) (ls : List (List Char))
    (h : ∀ l ∈ ls, durFind l = none) :
    (stepLines d ls).1 = d ∧
      percVals (stepLines d ls).2 =
        (ls.filterMap timeFind).map (fun t => min (t / d) 1) := by
  induction ls with
  | nil => exact ⟨rfl, rfl⟩
  | cons l ls ih =>
    have hl : durFind l = none := h l (List.mem_cons_self l ls)
    have hd' : durUpdate d l = d := by simp [durUpdate, hl]
    have ihr := ih (fun x hx => h x (List.mem_cons_of_mem l hx))
    constructor
    · show (stepLines (stepLine d l).1 ls).1 = d
      rw [show (stepLine d l).1 = d from hd']
      exact ihr.1
    · show percVals ((stepLine d l).2 ++ (stepLines (stepLine d l).1 ls).2) = _
      rw [percVals_append, percVals_stepLine, percVals_percOut, hd']
      rw [show (stepLine d l).1 = d from hd']
      rw [ihr.2, if_pos hd]
      rcases ht : timeFind l with _ | t
      · simp [List.filterMap_cons, ht]
      · simp [List.filterMap_cons, ht]

/-- Claim C1 (amended): the recorded total duration after processing a
stream of lines is the value of the LAST line matching the Duration
pattern (or the initial value when none matches): every later match
overwrites the earlier one, so a second Duration line with a different
value does change the denominator used for subsequent percentages. -/
theorem claim1_duration_last_wins (d : ℚ) (ls : List (List Char)) :
    (stepLines d ls).1 = (ls.filterMap durFind).getLastD d := by
  induction ls generalizing d with
  | nil => rfl
  | cons l ls ih =>
    show (stepLines (stepLine d l).1 ls).1 = _
    rcases hl : durFind l with _ | v
    · rw [List.filterMap_cons_none hl]
      rw [show (stepLine d l).1 = d by simp [stepLine, durUpdate, hl]]
      exact ih d
    · rw [List.filterMap_cons_some hl, List.getLastD_cons]
      rw [show (stepLine d l).1 = v by simp [stepLine, durUpdate, hl]]
      exact ih v

/-- Non-terminator bytes are simply accumulated onto the buffer. -/
theorem readLinesAux_accum (l : List Char) (hl : ∀ c ∈ l, ¬(c = '\n' ∨ c = '\r'))
    (buf bs : List Char) :
    readLinesAux buf (l ++ bs) = readLinesAux (buf ++ l) bs := by
  induction l generalizing buf with
  | nil => simp
  | cons c cs ih =>
    have hc : ¬(c = '\n' ∨ c = '\r') := hl c (List.mem_cons_self c cs)
    rw [List.cons_append, readLinesAux, if_neg hc]
    rw [ih (fun x hx => hl x (List.mem_cons_of_mem c hx)) (buf ++ [c])]
    simp [List.append_assoc]

/-- A terminator-free stream makes the reader emit nothing: emission
happens only at terminator boundaries. -/
theorem readLinesAux_no_term (tl : List Char) (htl : ∀ c ∈ tl, ¬(c = '\n' ∨ c = '\r'))
    (buf : List Char) : readLinesAux buf tl = [] := by
  induction tl generalizing buf with
  | nil => rfl
  | cons c cs ih =>
    have hc : ¬(c = '\n' ∨ c = '\r') := htl c (List.mem_cons_self c cs)
    rw [readLinesAux, if_neg hc]
    exact ih (fun x hx => htl x (List.mem_cons_of_mem c hx)) _

/-- The reader never emits an empty line: the empty-buffer guard skips
emission at every terminator. -/
theorem readLinesAux_no_empty (bs : List Char) (buf : List Char) :
    [] ∉ readLinesAux buf bs := by
  induction bs generalizing buf with
  | nil => simp [readLinesAux]
  | cons b rest ih =>
    rw [readLinesAux]
    split_ifs with h1 h2
    · exact ih []
    · intro hmem
      rcases List.mem_cons.mp hmem with h | h
      · rw [← h] at h2
        exact h2 rfl
      · exact ih [] h
    · exact ih (buf ++ [b])

/-- Unterminated trailing bytes at end of stream are discarded: they do
not change the emitted lines. -/
theorem readLinesAux_drop_tail (bs : List Char) (tl : List Char)
    (htl : ∀ c ∈ tl, ¬(c = '\n' ∨ c = '\r')) (buf : List Char) :
    readLinesAux buf (bs ++ tl) = readLinesAux buf bs := by
  induction bs generalizing buf with
  | nil => simpa [readLinesAux] using readLinesAux_no_term tl htl buf
  | cons b rest ih =>
    rw [List.cons_append, readLinesAux, readLinesAux]
    split_ifs with h1 h2
    · exact ih []
    · rw [ih []]
    · exact ih (buf ++ [b])

/-- A `\n` immediately following a `\r` is absorbed by the empty-buffer
guard: it changes nothing in the emitted line sequence. -/
theorem readLinesAux_crlf (pre post : List Char) (buf : List Char) :
    readLinesAux buf (pre ++ '\r' :: '\n' :: post) =
      readLinesAux buf (pre ++ '\r' :: post) := by
  induction pre generalizing buf with
  | nil =>
    simp only [List.nil_append]
    cases buf <;> simp [readLinesAux]
  | cons b rest ih =>
    rw [List.cons_append, List.cons_append, readLinesAux, readLinesAux]
    split_ifs with h1 h2
    · exact ih []
    · rw [ih []]
    · exact ih (buf ++ [b])

/-- Claim C1 (counterexample): a second `Duration:` line with a
different value does overwrite the recorded total and does change the
denominator of a subsequently computed percentage: after lines with
durations 10s then 20s, a `time=` marker of 10s yields 1/2, not the 1
first-occurrence-wins semantics would give. -/
theorem claim1_counterexample :
    (stepLines 0 ["Duration: 00:00:10.0".toList, "Duration: 00:00:20.0".toList,
        "time=00:00:10.0".toList]).1 = 20 ∧ (20 : ℚ) ≠ 10 ∧
      percVals (stepLines 0 ["Duration: 00:00:10.0".toList,
        "Duration: 00:00:20.0".toList, "time=00:00:10.0".toList]).2 = [1/2] ∧
      (1 : ℚ)/2 ≠ 1 := by
  decide

/-- Claim C3 (counterexample): the emitted completion fractions are not
monotonically increasing in general: a `time=` marker smaller than an
earlier one produces a smaller fraction (here 1/2 followed by 1/5). -/
theorem claim3_counterexample :
    percVals (stepLines 0 ["Duration: 00:00:10.0".toList, "time=00:00:05.0".toList,
        "time=00:00:02.0".toList]).2 = [1/2, 1/5] ∧
      ¬ List.Pairwise (fun a b => a ≤ b)
        (percVals (stepLines 0 ["Duration: 00:00:10.0".toList,
          "time=00:00:05.0".toList, "time=00:00:02.0".toList]).2) := by
  decide

/-- Claim C3 (amended): within one invocation the emitted fractions are
monotonically nondecreasing PROVIDED the parsed time markers are
themselves nondecreasing and no line after the initial duration line
matches the duration pattern again: each fraction is the clamped ratio
of its time marker over the fixed positive total. -/
theorem claim3_monotone_after_stable_duration (l0 : List Char)
    (rest : List (List Char)) (D : ℚ) (h0 : durFind l0 = some D) (hD : 0 < D)
    (ht0 : timeFind l0 = none) (hrest : ∀ l ∈ rest, durFind l = none)
    (hmono : List.Pairwise (fun a b => a ≤ b) (rest.filterMap timeFind)) :
    List.Pairwise (fun a b => a ≤ b) (percVals (stepLines 0 (l0 :: rest)).2) := by
  have hstep : (stepLine 0 l0).1 = D := by simp [stepLine, durUpdate, h0]
  show List.Pairwise (fun a b => a ≤ b)
    (percVals ((stepLine 0 l0).2 ++ (stepLines (stepLine 0 l0).1 rest).2))
  rw [percVals_append, percVals_stepLine, percVals_percOut, hstep]
  rw [show durUpdate 0 l0 = D by simp [durUpdate, h0], if_pos hD, ht0]
  rw [(stepLines_const_dur D hD rest hrest).2]
  simp only [List.nil_append]
  refine hmono.map (fun t => min (t / D) 1) ?_
  intro a b hab
  exact min_le_min (by gcongr) (le_refl 1)

/-- Claim C3 (amended) witness at a concrete stream. -/
theorem claim3_monotone_witness :
    List.Pairwise (fun a b => a ≤ b)
      (percVals (stepLines 0 ["Duration: 00:00:10.0".toList,
        "time=00:00:05.0".toList, "time=00:00:10.0".toList]).2) :=
  claim3_monotone_after_stable_duration "Duration: 00:00:10.0".toList
    ["time=00:00:05.0".toList, "time=00:00:10.0".toList] 10
    (by decide) (by decide) (by decide) (by decide) (by decide)

/-- Claim C4 (counterexample): a byte stream consisting of one complete
line terminated by a newline byte, where that line is empty, makes the
reader produce nothing rather than that empty line: the empty-line guard
drops it. -/
theorem claim4_counterexample :
    readLines (List.flatten ([([] : List Char)].map (fun l => l ++ ['\n']))) = [] ∧
      ([] : List (List Char)) ≠ [[]] := by
  decide

/-- Claim C4 (amended): for a byte stream consisting only of complete
NONEMPTY lines (free of both terminator bytes) each terminated by a
newline byte, the reader produces exactly those lines, with terminators
stripped, in arrival order. -/
theorem claim4_reader_exact (lines : List (List Char))
    (h : ∀ l ∈ lines, l ≠ [] ∧ ∀ c ∈ l, ¬(c = '\n' ∨ c = '\r')) :
    readLines (List.flatten (lines.map (fun l => l ++ ['\n']))) = lines := by
  induction lines with
  | nil => rfl
  | cons l ls ih =>
    have hl := h l (List.mem_cons_self l ls)
    have hrest : ∀ x ∈ ls, x ≠ [] ∧ ∀ c ∈ x, ¬(c = '\n' ∨ c = '\r') :=
      fun x hx => h x (List.mem_cons_of_mem l hx)
    show readLinesAux []
      ((l ++ ['\n']) ++ List.flatten (ls.map (fun x => x ++ ['\n']))) = l :: ls
    rw [List.append_assoc, readLinesAux_accum l hl.2 [] _, List.nil_append]
    rw [show ['\n'] ++ List.flatten (ls.map (fun x => x ++ ['\n']))
        = '\n' :: List.flatten (ls.map (fun x => x ++ ['\n'])) from rfl]
    rw [readLinesAux, if_pos (Or.inl rfl),
      if_neg (by simpa [List.isEmpty_iff] using hl.1)]
    exact congrArg (l :: ·) (ih hrest)

/-- Claim C4 (amended) witness at a concrete two-line stream. -/
theorem claim4_reader_witness :
    readLines (List.flatten (["ab".toList, "c".toList].map (fun l => l ++ ['\n'])))
      = ["ab".toList, "c".toList] :=
  claim4_reader_exact ["ab".toList, "c".toList] (by decide)

/-- Claim C8: consecutive terminator bytes never produce an extra empty
line, because the reader never emits an empty line at all; a newline directly
following a carriage return is absorbed without effect, and bytes
accumulated but never terminated at end of stream are discarded. -/
theorem claim8_terminator_guards (bs pre post tl : List Char)
    (htl : ∀ c ∈ tl, ¬(c = '\n' ∨ c = '\r')) :
    ([] ∉ readLines bs) ∧
      readLines (pre ++ '\r' :: '\n' :: post) = readLines (pre ++ '\r' :: post) ∧
      readLines (bs ++ tl) = readLines bs := by
  exact ⟨readLinesAux_no_empty bs [], readLinesAux_crlf pre post [],
    readLinesAux_drop_tail bs tl htl []⟩

/-- Claim C8 witness at a concrete stream containing a CRLF pair and an
unterminated tail. -/
theorem claim8_terminator_witness :
    ([] ∉ readLines "ab\r\ncd\n".toList) ∧
      readLines ("ab".toList ++ '\r' :: '\n' :: "cd\n".toList)
        = readLines ("ab".toList ++ '\r' :: "cd\n".toList) ∧
      readLines ("ab\r\ncd\n".toList ++ "xy".toList) = readLines "ab\r\ncd\n".toList :=
  claim8_terminator_guards "ab\r\ncd\n".toList "ab".toList "cd\n".toList
    "xy".toList (by decide)

/-- Claim C5: every fraction carried by a `Percentage` event emitted from
a parsed time marker lies in the closed interval from 0 to 1; when the
marker meets or exceeds the recorded (positive) total duration the
emitted fraction is exactly 1. -/
theorem claim5_percentage_clamped (d : ℚ) (line : List Char) :
    (∀ p, ProgressInfo.Percentage p ∈ (stepLine d line).2 → 0 ≤ p ∧ p ≤ 1) ∧
      (∀ t, timeFind line = some t → 0 < durUpdate d line →
        durUpdate d line ≤ t → ProgressInfo.Percentage 1 ∈ (stepLine d line).2) := by
  constructor
  · intro p hp
    have hp2 : ProgressInfo.Percentage p ∈ percOut (durUpdate d line) line := by
      rcases List.mem_append.mp hp with h | h
      · exfalso
        by_cases hf : framePref line <;> simp [hf] at h
      · exact h
    unfold percOut at hp2
    split_ifs at hp2 with hpos
    · rcases ht : timeFind line with _ | t <;> rw [ht] at hp2
      · simp at hp2
      · have : p = min (t / durUpdate d line) 1 := by
          simpa using hp2
        subst this
        constructor
        · exact le_min (div_nonneg (timeFind_nonneg line t ht) hpos.le) zero_le_one
        · exact min_le_right _ _
    · simp at hp2
  · intro t ht hpos hle
    have hout : percOut (durUpdate d line) line = [ProgressInfo.Percentage 1] := by
      unfold percOut
      rw [if_pos hpos, ht]
      show [ProgressInfo.Percentage (min (t / durUpdate d line) 1)]
        = [ProgressInfo.Percentage 1]
      rw [min_eq_right ((one_le_div hpos).mpr hle)]
    refine List.mem_append.mpr (Or.inr ?_)
    rw [hout]
    exact List.mem_singleton.mpr rfl

/-- Claim C5 witness: a marker of 15s against a recorded total of 10s
emits exactly 1, and every emitted fraction at that input is within the
unit interval. -/
theorem claim5_percentage_witness :
    ProgressInfo.Percentage 1 ∈ (stepLine 10 "time=00:00:15".toList).2 ∧
      (0 ≤ (1:ℚ) ∧ (1:ℚ) ≤ 1) := by
  exact ⟨(claim5_percentage_clamped 10 "time=00:00:15".toList).2 15
      (by decide) (by decide) (by decide),
    (claim5_percentage_clamped 10 "time=00:00:15".toList).1 1 (by decide)⟩

/-- Claim C6: while every line seen so far has failed to set a positive
total duration, no `Percentage` event is emitted: the prefix of such
lines contributes no percentage values at all, and the percentages of
the whole stream are exactly those of the suffix. -/
theorem claim6_no_percentage_before_duration (pre suf : List (List Char))
    (h : ∀ l ∈ pre, (durFind l).getD 0 = 0) :
    percVals (stepLines 0 pre).2 = [] ∧
      percVals (stepLines 0 (pre ++ suf)).2 = percVals (stepLines 0 suf).2 := by
  have key : ∀ ls : List (List Char), (∀ l ∈ ls, (durFind l).getD 0 = 0) →
      (stepLines 0 ls).1 = 0 ∧ percVals (stepLines 0 ls).2 = [] := by
    intro ls hls
    induction ls with
    | nil => exact ⟨rfl, rfl⟩
    | cons l rest ih =>
      have hl : (durFind l).getD 0 = 0 := hls l (List.mem_cons_self l rest)
      have hupd : durUpdate 0 l = 0 := by
        unfold durUpdate
        rcases hd : durFind l with _ | v
        · rfl
        · rw [hd] at hl
          simpa using hl
      have ihr := ih (fun x hx => hls x (List.mem_cons_of_mem l hx))
      have hstep : (stepLine 0 l).1 = 0 := hupd
      constructor
      · show (stepLines (stepLine 0 l).1 rest).1 = 0
        rw [hstep]
        exact ihr.1
      · show percVals ((stepLine 0 l).2 ++ (stepLines (stepLine 0 l).1 rest).2) = []
        rw [percVals_append, percVals_stepLine, percVals_percOut, hupd, hstep, ihr.2]
        simp
  have hpre := key pre h
  refine ⟨hpre.2, ?_⟩
  rw [stepLines_append, percVals_append, hpre.2, hpre.1, List.nil_append]

/-- Claim C6 witness: a `time=` line before any duration line emits no
percentage, and the stream's percentages are those of the suffix. -/
theorem claim6_witness :
    percVals (stepLines 0 ["time=00:00:05.0".toList]).2 = [] ∧
      percVals (stepLines 0 (["time=00:00:05.0".toList] ++
          ["Duration: 00:00:10.0".toList, "time=00:00:05.0".toList])).2
        = percVals (stepLines 0 ["Duration: 00:00:10.0".toList,
            "time=00:00:05.0".toList]).2 :=
  claim6_no_percentage_before_duration ["time=00:00:05.0".toList]
    ["Duration: 00:00:10.0".toList, "time=00:00:05.0".toList] (by decide)

/-- Claim C7: a processed line is forwarded as a `LogLine` event exactly
when it does not start with the literal `frame=`; the duration update
and percentage extraction run on the line regardless of that
suppression. -/
theorem claim7_log_suppression (d : ℚ) (line : List Char) :
    (ProgressInfo.Log line ∈ (stepLine d line).2 ↔ framePref line = false) ∧
      (stepLine d line).1 = durUpdate d line ∧
      percVals (stepLine d line).2 = percVals (percOut (durUpdate d line) line) := by
  refine ⟨?_, rfl, percVals_stepLine d line⟩
  have hperc : ProgressInfo.Log line ∉ percOut (durUpdate d line) line := by
    unfold percOut
    split_ifs
    · rcases timeFind line with _ | t <;> simp
    · simp
  constructor
  · intro hmem
    rcases List.mem_append.mp hmem with h | h
    · by_cases hf : framePref line
      · simp [hf] at h
      · simpa using hf
    · exact absurd h hperc
  · intro hf
    exact List.mem_append.mpr (Or.inl (by simp [hf]))

/-- Bytes read before any end-of-stream or error condition pass through
unchanged. -/
theorem readBytes_byte_run (bs : List Char) (s : List ReadStep) :
    readBytes (bs.map ReadStep.byte ++ s) = bs ++ readBytes s := by
  induction bs with
  | nil => rfl
  | cons c rest ih => simp [readBytes, ih]

/-- The worker attempts every message in order, whatever the channel
does with each send. -/
theorem sendAllFrom_fst (ch : ℕ → Bool) (n : ℕ) (ms : List AppEvent) :
    (sendAllFrom ch n ms).map Prod.fst = ms := by
  induction ms generalizing n with
  | nil => rfl
  | cons m rest ih => simp [sendAllFrom, ih]

/-- Progress messages are never terminal. -/
theorem progress_not_terminal (evs : List ProgressInfo) :
    (evs.map AppEvent.Progress).filter isTerminal = [] := by
  induction evs with
  | nil => rfl
  | cons e rest ih => simp [isTerminal, ih]

/-- Claim C2: on successful exit the final callback event is the
unconditionally appended `Percentage(1.0)`; on non-zero exit no such
event is forced, the run fails with a message carrying the exit
status's text, and the worker's single terminal channel message is that
`Error`. -/
theorem claim2_exit_handling (steps : List ReadStep) (st : ExitStatus) :
    (st.success = true →
      (runFfmpeg steps st).1
          = (stepLines 0 (readLines (readBytes steps))).2
            ++ [ProgressInfo.Percentage 1] ∧
        ((runFfmpeg steps st).1).getLast? = some (ProgressInfo.Percentage 1) ∧
        (runFfmpeg steps st).2 = Except.ok ()) ∧
      (st.success = false →
        (runFfmpeg steps st).1 = (stepLines 0 (readLines (readBytes steps))).2 ∧
          (runFfmpeg steps st).2 = Except.error (statusMsg st) ∧
          statusMsg st = "ffmpeg failed with status: ".toList ++ st.display ∧
          (workerSends steps st).filter isTerminal
            = [AppEvent.Error (statusMsg st)]) := by
  constructor
  · intro hs
    refine ⟨?_, ?_, ?_⟩ <;> simp [runFfmpeg, hs, List.getLast?_concat]
  · intro hs
    refine ⟨?_, ?_, rfl, ?_⟩
    · simp [runFfmpeg, hs]
    · simp [runFfmpeg, hs]
    · unfold workerSends
      rw [List.filter_append, progress_not_terminal, List.nil_append]
      simp [runFfmpeg, hs, isTerminal]

/-- Claim C2 witness: both exit branches at concrete inputs. -/
theorem claim2_exit_witness :
    ((runFfmpeg [] ⟨true, "exit status: 0".toList⟩).1).getLast?
        = some (ProgressInfo.Percentage 1) ∧
      (runFfmpeg [] ⟨false, "exit status: 1".toList⟩).2
        = Except.error (statusMsg ⟨false, "exit status: 1".toList⟩) :=
  ⟨((claim2_exit_handling [] ⟨true, "exit status: 0".toList⟩).1 rfl).2.1,
    ((claim2_exit_handling [] ⟨false, "exit status: 1".toList⟩).2 rfl).2.1⟩

/-- Claim C9: an I/O error while reading the diagnostic stream is
non-fatal and indistinguishable from end of stream: the whole run
(events and outcome) is the same as if the stream had ended there, and
the run's outcome is determined solely by the exit status, not by the
stream. -/
theorem claim9_read_error_nonfatal (bs : List Char) (rest rest2 : List ReadStep)
    (st : ExitStatus) :
    runFfmpeg (bs.map ReadStep.byte ++ ReadStep.ioErr :: rest) st
        = runFfmpeg (bs.map ReadStep.byte ++ ReadStep.eof :: rest2) st ∧
      ∀ steps steps2 : List ReadStep,
        (runFfmpeg steps st).2 = (runFfmpeg steps2 st).2 := by
  constructor
  · unfold runFfmpeg
    rw [readBytes_byte_run, readBytes_byte_run]
    rfl
  · intro steps steps2
    unfold runFfmpeg
    by_cases hs : st.success <;> simp [hs]

/-- Claim C10: a failed channel send is silently ignored: the worker
attempts every message in order regardless of how the channel behaves,
ending with exactly one terminal message, and what it attempts is a
function of the stream and exit status alone (two different channel
behaviours see identical attempt sequences). -/
theorem claim10_send_failures_ignored (ch ch2 : ℕ → Bool) (steps : List ReadStep)
    (st : ExitStatus) :
    (workerRun ch steps st).map Prod.fst = workerSends steps st ∧
      (workerRun ch steps st).map Prod.fst = (workerRun ch2 steps st).map Prod.fst ∧
      ((workerSends steps st).filter isTerminal).length = 1 := by
  refine ⟨sendAllFrom_fst ch 0 _, ?_, ?_⟩
  · unfold workerRun
    rw [sendAllFrom_fst ch 0 _, sendAllFrom_fst ch2 0 _]
  · unfold workerSends
    rw [List.filter_append, progress_not_terminal, List.nil_append]
    rcases (runFfmpeg steps st).2 with _ | u <;> simp [isTerminal]
